import Mathlib

/-
Verification development for the dedup-images repository.

The development shallowly embeds the Python sources:
  * src/dedupimages/hashdb.py   (HashItem / HashDB: add, dump/load, find_pairs,
    find_groups, query, list_top_paths, binary_equal)
  * src/imagedups/imagehash.py  (serialization of perceptual hash values;
    the dedupimages variant of this module is not shipped under src/, but the
    shipped imagedups variant provides the identical str()/load() interface
    that dedupimages/hashdb.py calls)
  * src/imagedups.py            (per-directory HashDB: save, update_db,
    time_changed)
  * src/imagedups/imagedups.py  (ImageDups.load_database, update_db pool size)

Modelling conventions:
  * machine integers are Nat/Int, byte strings are List Nat (each < 256);
  * the cryptographic hash (hashlib.sha256) is external and modeled as an
    injective digest function (the digest of a byte list is the byte list
    itself), the standard collision-free idealization;
  * perceptual hash computation and distance (the phash C library) are
    external capabilities and enter as parameters;
  * Python sets become Finset, dicts become association lists in insertion
    order, generators are fully consumed into lists, raising code returns
    Option/Except.
-/

namespace PHashSer

/-- Uppercase hex digit for a value `d < 16`, as produced by Python's
`'%X'` formatting and by `binascii.hexlify(...).upper()`. -/
def hexChar (d : Nat) : Char :=
  if d < 10 then Char.ofNat (48 + d) else Char.ofNat (55 + d)

/-- Numeric value of a hex digit character, as accepted by Python's
`int(s, 16)` and `binascii.unhexlify`. -/
def hexVal (c : Char) : Nat :=
  if 97 ≤ c.toNat then c.toNat - 87
  else if 65 ≤ c.toNat then c.toNat - 55
  else c.toNat - 48

theorem hexVal_hexChar {d : Nat} (h : d < 16) : hexVal (hexChar d) = d := by
  interval_cases d <;> decide

theorem hexChar_ne_dash {d : Nat} (h : d < 16) : hexChar d ≠ '-' := by
  interval_cases d <;> decide

/-- Little-endian base-16 digit expansion, computed with explicit fuel so
that the recursion is structural. -/
def hexDigitsAux : Nat → Nat → List Nat
  | 0, _ => []
  | fuel + 1, n => if n = 0 then [] else n % 16 :: hexDigitsAux fuel (n / 16)

theorem hexDigitsAux_eq_digits : ∀ fuel n, n ≤ fuel → hexDigitsAux fuel n = Nat.digits 16 n := by
  intro fuel
  induction fuel with
  | zero =>
      intro n hn
      interval_cases n
      simp [hexDigitsAux]
  | succ fuel ih =>
      intro n hn
      by_cases h0 : n = 0
      · subst h0
        simp [hexDigitsAux]
      · have hpos : 0 < n := Nat.pos_of_ne_zero h0
        have hdiv : n / 16 < n := Nat.div_lt_self hpos (by norm_num)
        show (if n = 0 then [] else n % 16 :: hexDigitsAux fuel (n / 16)) = _
        rw [if_neg h0, ih (n / 16) (by omega), Nat.digits_def' (by norm_num : 1 < 16) hpos]

/-- Big-endian base-16 digit list of a natural number (empty for 0),
mirroring the digit sequence printed by `'%X'`. -/
def hexDigitsBE (n : Nat) : List Nat :=
  (hexDigitsAux n n).reverse

theorem hexDigitsBE_eq (n : Nat) : hexDigitsBE n = (Nat.digits 16 n).reverse := by
  unfold hexDigitsBE
  rw [hexDigitsAux_eq_digits n n le_rfl]

/-- Left padding with zero digits up to width `w`, mirroring `'%0wX'`. -/
def padLeft0 (w : Nat) (ds : List Nat) : List Nat :=
  List.replicate (w - ds.length) 0 ++ ds

/-- Value of a big-endian base-16 digit list, mirroring `int(s, 16)`
on the digit portion. -/
def hexListToNat (ds : List Nat) : Nat :=
  ds.foldl (fun a d => 16 * a + d) 0

theorem foldl_hex_eq_ofDigits (l : List Nat) (a : Nat) :
    l.foldl (fun a d => 16 * a + d) a = Nat.ofDigits 16 l.reverse + a * 16 ^ l.length := by
  induction l generalizing a with
  | nil => simp [Nat.ofDigits_nil]
  | cons d tl ih =>
      simp only [List.foldl_cons, List.reverse_cons, Nat.ofDigits_append, List.length_cons,
        Nat.ofDigits_singleton, List.length_reverse]
      rw [ih]
      ring

theorem hexListToNat_hexDigitsBE (n : Nat) : hexListToNat (hexDigitsBE n) = n := by
  unfold hexListToNat
  rw [hexDigitsBE_eq, foldl_hex_eq_ofDigits]
  simp [Nat.ofDigits_digits]

theorem hexListToNat_padLeft0 (w : Nat) (ds : List Nat) :
    hexListToNat (padLeft0 w ds) = hexListToNat ds := by
  unfold hexListToNat padLeft0
  rw [List.foldl_append]
  have hz : ∀ (k : Nat), (List.replicate k (0 : Nat)).foldl (fun a d => 16 * a + d) 0 = 0 := by
    intro k
    induction k with
    | zero => rfl
    | succ k ih => simpa [List.replicate_succ] using ih
  rw [hz]

theorem mem_hexDigitsBE_lt {n d : Nat} (h : d ∈ hexDigitsBE n) : d < 16 := by
  rw [hexDigitsBE_eq] at h
  exact Nat.digits_lt_base (by norm_num) (List.mem_reverse.mp h)

theorem mem_padLeft0_lt {w n d : Nat} (h : d ∈ padLeft0 w (hexDigitsBE n)) : d < 16 := by
  rcases List.mem_append.mp h with h0 | hd
  · have := List.eq_of_mem_replicate h0
    omega
  · exact mem_hexDigitsBE_lt hd

theorem map_hexVal_map_hexChar {ds : List Nat} (h : ∀ d ∈ ds, d < 16) :
    (ds.map hexChar).map hexVal = ds := by
  induction ds with
  | nil => rfl
  | cons d tl ih =>
      simp only [List.map_cons, List.cons.injEq]
      exact ⟨hexVal_hexChar (h d (by simp)), ih fun x hx => h x (by simp [hx])⟩

/-- Formatting of an `%016X`-style hex rendering of a Python int, as used by
`DctImageHash.__str__` (`'%016X' % self._hash`): sixteen zero-padded uppercase
hex digits, with a leading minus sign (counted in the field width) for
negative values. -/
def fmt016X (n : Int) : List Char :=
  if n < 0 then '-' :: (padLeft0 15 (hexDigitsBE n.natAbs)).map hexChar
  else (padLeft0 16 (hexDigitsBE n.toNat)).map hexChar

/-- Parsing of a (possibly sign-carrying) hex string, as done by Python's
`int(s, 16)` in `DctImageHash.load`, restricted to the strings the dumper
produces (no whitespace, no `0x`, no `+`). -/
def parseHexChars (cs : List Char) : Int :=
  if cs.head? = some '-' then -(hexListToNat ((cs.drop 1).map hexVal) : Int)
  else (hexListToNat (cs.map hexVal) : Int)

theorem parseHexChars_cons_dash (l : List Char) :
    parseHexChars ('-' :: l) = -(hexListToNat (l.map hexVal) : Int) := by
  unfold parseHexChars
  rw [if_pos (by rfl)]
  rfl

theorem parseHexChars_not_dash {cs : List Char} (h : cs.head? ≠ some '-') :
    parseHexChars cs = (hexListToNat (cs.map hexVal) : Int) := by
  unfold parseHexChars
  rw [if_neg h]

theorem parseHexChars_fmt016X (n : Int) : parseHexChars (fmt016X n) = n := by
  by_cases hneg : n < 0
  · have : fmt016X n = '-' :: (padLeft0 15 (hexDigitsBE n.natAbs)).map hexChar := by
      simp [fmt016X, hneg]
    rw [this, parseHexChars_cons_dash,
      map_hexVal_map_hexChar (fun d hd => mem_padLeft0_lt hd),
      hexListToNat_padLeft0, hexListToNat_hexDigitsBE]
    omega
  · have hn : ¬ n < 0 := hneg
    have : fmt016X n = (padLeft0 16 (hexDigitsBE n.toNat)).map hexChar := by
      simp [fmt016X, hn]
    rw [this]
    have hhead : ((padLeft0 16 (hexDigitsBE n.toNat)).map hexChar).head? ≠ some '-' := by
      have hlen : (padLeft0 16 (hexDigitsBE n.toNat)).length ≠ 0 := by
        simp only [padLeft0, List.length_append, List.length_replicate]
        omega
      cases hds : padLeft0 16 (hexDigitsBE n.toNat) with
      | nil => exact absurd (by simp [hds]) hlen
      | cons d tl =>
          have hmem : d ∈ padLeft0 16 (hexDigitsBE n.toNat) := by
            rw [hds]
            exact List.mem_cons_self d tl
          have hd16 : d < 16 := mem_padLeft0_lt hmem
          simp only [List.map_cons, List.head?_cons, ne_eq, Option.some.injEq]
          exact hexChar_ne_dash hd16
    rw [parseHexChars_not_dash hhead,
      map_hexVal_map_hexChar (fun d hd => mem_padLeft0_lt hd),
      hexListToNat_padLeft0, hexListToNat_hexDigitsBE]
    omega

/-- Byte-to-hex expansion as produced by `binascii.hexlify(b).upper()`
in `MhImageHash.__str__` / `RadialImageHash.__str__`: two uppercase hex
characters per byte. -/
def hexlifyUpper (bs : List Nat) : List Char :=
  bs.flatMap fun b => [hexChar (b / 16), hexChar (b % 16)]

/-- Hex-to-byte contraction as done by `binascii.unhexlify` in
`MhImageHash.load` / `RadialImageHash.load`, on even-length input. -/
def unhexlify : List Char → List Nat
  | c1 :: c2 :: rest => (16 * hexVal c1 + hexVal c2) :: unhexlify rest
  | _ => []

theorem unhexlify_hexlifyUpper {bs : List Nat} (h : ∀ b ∈ bs, b < 256) :
    unhexlify (hexlifyUpper bs) = bs := by
  induction bs with
  | nil => rfl
  | cons b tl ih =>
      have hb : b < 256 := h b (by simp)
      have hdiv : b / 16 < 16 := by omega
      have hmod : b % 16 < 16 := by omega
      simp only [hexlifyUpper, List.flatMap_cons, List.cons_append, List.nil_append]
      show (16 * hexVal (hexChar (b / 16)) + hexVal (hexChar (b % 16))) ::
          unhexlify (hexlifyUpper tl) = b :: tl
      rw [hexVal_hexChar hdiv, hexVal_hexChar hmod, ih fun x hx => h x (by simp [hx])]
      congr 1
      omega

end PHashSer

namespace PySort

/-- Insertion step of a stable insertion sort. -/
def insOrd {α : Type} (le : α → α → Bool) (x : α) : List α → List α
  | [] => [x]
  | y :: ys => if le x y then x :: y :: ys else y :: insOrd le x ys

/-- Stable sort modelling Python's `sorted` / `list.sort`. -/
def sortLe {α : Type} (le : α → α → Bool) (l : List α) : List α :=
  l.foldr (insOrd le) []

theorem perm_insOrd {α : Type} (le : α → α → Bool) (x : α) (l : List α) :
    List.Perm (insOrd le x l) (x :: l) := by
  induction l with
  | nil => exact List.Perm.refl _
  | cons y ys ih =>
      show List.Perm (if le x y then x :: y :: ys else y :: insOrd le x ys) (x :: y :: ys)
      by_cases h : le x y
      · rw [if_pos h]
      · rw [if_neg h]
        exact (List.Perm.cons y ih).trans (List.Perm.swap x y ys)

theorem mem_insOrd {α : Type} (le : α → α → Bool) (x : α) (l : List α) (a : α) :
    a ∈ insOrd le x l ↔ a = x ∨ a ∈ l := by
  rw [(perm_insOrd le x l).mem_iff]
  simp

theorem sortLe_perm {α : Type} (le : α → α → Bool) (l : List α) :
    List.Perm (sortLe le l) l := by
  induction l with
  | nil => exact List.Perm.refl _
  | cons x xs ih =>
      show List.Perm (insOrd le x (sortLe le xs)) (x :: xs)
      exact (perm_insOrd le x (sortLe le xs)).trans (List.Perm.cons x ih)

theorem mem_sortLe {α : Type} (le : α → α → Bool) (l : List α) (a : α) :
    a ∈ sortLe le l ↔ a ∈ l :=
  (sortLe_perm le l).mem_iff

theorem pairwise_insOrd {α : Type} {le : α → α → Bool}
    (htot : ∀ a b, le a b = true ∨ le b a = true)
    (htrans : ∀ a b c, le a b = true → le b c = true → le a c = true)
    (x : α) {l : List α} (hl : l.Pairwise fun a b => le a b = true) :
    (insOrd le x l).Pairwise fun a b => le a b = true := by
  induction l with
  | nil => simp [insOrd]
  | cons y ys ih =>
      rcases List.pairwise_cons.mp hl with ⟨hy, hys⟩
      show (if le x y then x :: y :: ys else y :: insOrd le x ys).Pairwise _
      by_cases hxy : le x y = true
      · rw [if_pos hxy]
        refine List.pairwise_cons.mpr ⟨?_, hl⟩
        intro z hz
        rcases List.mem_cons.mp hz with rfl | hz2
        · exact hxy
        · exact htrans x y z hxy (hy z hz2)
      · rw [if_neg hxy]
        have hyx : le y x = true := (htot x y).resolve_left hxy
        refine List.pairwise_cons.mpr ⟨?_, ih hys⟩
        intro z hz
        rcases (mem_insOrd le x ys z).mp hz with rfl | hz2
        · exact hyx
        · exact hy z hz2

theorem sortLe_pairwise {α : Type} {le : α → α → Bool}
    (htot : ∀ a b, le a b = true ∨ le b a = true)
    (htrans : ∀ a b c, le a b = true → le b c = true → le a c = true)
    (l : List α) : (sortLe le l).Pairwise fun a b => le a b = true := by
  induction l with
  | nil => simp [sortLe]
  | cons x xs ih => exact pairwise_insOrd htot htrans x ih

theorem sortLe_eq_of_perm {α : Type} {le : α → α → Bool}
    (htot : ∀ a b, le a b = true ∨ le b a = true)
    (htrans : ∀ a b c, le a b = true → le b c = true → le a c = true)
    (hanti : ∀ a b, le a b = true → le b a = true → a = b)
    {l₁ l₂ : List α} (h : List.Perm l₁ l₂) : sortLe le l₁ = sortLe le l₂ := by
  have hp : List.Perm (sortLe le l₁) (sortLe le l₂) :=
    ((sortLe_perm le l₁).trans h).trans (sortLe_perm le l₂).symm
  exact @List.eq_of_perm_of_sorted α (fun a b => le a b = true) ⟨hanti⟩ _ _ hp
    (sortLe_pairwise htot htrans l₁) (sortLe_pairwise htot htrans l₂)

/-- Strict lexicographic comparison of character lists by code point, the
order Python uses on `str`. -/
def strLtList : List Char → List Char → Bool
  | [], [] => false
  | [], _ :: _ => true
  | _ :: _, [] => false
  | a :: as_, b :: bs => if a < b then true else if b < a then false else strLtList as_ bs

/-- Reflexive lexicographic comparison of character lists by code point. -/
def strLeList : List Char → List Char → Bool
  | [], _ => true
  | _ :: _, [] => false
  | a :: as_, b :: bs => if a < b then true else if b < a then false else strLeList as_ bs

/-- Python `s < t` on strings. -/
def strLt (s t : String) : Bool := strLtList s.data t.data

/-- Python `s <= t` on strings. -/
def strLe (s t : String) : Bool := strLeList s.data t.data

theorem strLeList_total : ∀ l₁ l₂, strLeList l₁ l₂ = true ∨ strLeList l₂ l₁ = true := by
  intro l₁
  induction l₁ with
  | nil => intro l₂; left; rfl
  | cons a as_ ih =>
      intro l₂
      cases l₂ with
      | nil => right; rfl
      | cons b bs =>
          show (if a < b then true else if b < a then false else strLeList as_ bs) = true ∨
            (if b < a then true else if a < b then false else strLeList bs as_) = true
          rcases lt_trichotomy a b with hab | hab | hab
          · left
            rw [if_pos hab]
          · subst hab
            rcases ih bs with h | h
            · left
              rw [if_neg (lt_irrefl a), if_neg (lt_irrefl a), h]
            · right
              rw [if_neg (lt_irrefl a), if_neg (lt_irrefl a), h]
          · right
            rw [if_pos hab]

theorem strLeList_trans :
    ∀ l₁ l₂ l₃, strLeList l₁ l₂ = true → strLeList l₂ l₃ = true → strLeList l₁ l₃ = true := by
  intro l₁
  induction l₁ with
  | nil => intro l₂ l₃ _ _; rfl
  | cons a as_ ih =>
      intro l₂ l₃ h12 h23
      cases l₂ with
      | nil => exact absurd h12 (by simp [strLeList])
      | cons b bs =>
          cases l₃ with
          | nil => exact absurd h23 (by simp [strLeList])
          | cons c cs =>
              show (if a < c then true else if c < a then false else strLeList as_ cs) = true
              have h12' : (if a < b then true else if b < a then false else
                strLeList as_ bs) = true := h12
              have h23' : (if b < c then true else if c < b then false else
                strLeList bs cs) = true := h23
              rcases lt_trichotomy a b with hab | hab | hab
              · rcases lt_trichotomy b c with hbc | hbc | hbc
                · rw [if_pos (lt_trans hab hbc)]
                · subst hbc
                  rw [if_pos hab]
                · rw [if_pos hbc, if_neg (lt_asymm hbc)] at h23'
                  exact absurd h23' (by simp)
              · subst hab
                rw [if_neg (lt_irrefl a), if_neg (lt_irrefl a)] at h12'
                rcases lt_trichotomy a c with hac | hac | hac
                · rw [if_pos hac]
                · subst hac
                  rw [if_neg (lt_irrefl a), if_neg (lt_irrefl a)] at h23'
                  rw [if_neg (lt_irrefl a), if_neg (lt_irrefl a)]
                  exact ih bs cs h12' h23'
                · rw [if_neg (lt_asymm hac), if_pos hac] at h23'
                  exact absurd h23' (by simp)
              · rw [if_neg (lt_asymm hab), if_pos hab] at h12'
                exact absurd h12' (by simp)

theorem strLeList_antisymm :
    ∀ l₁ l₂, strLeList l₁ l₂ = true → strLeList l₂ l₁ = true → l₁ = l₂ := by
  intro l₁
  induction l₁ with
  | nil =>
      intro l₂ _ h21
      cases l₂ with
      | nil => rfl
      | cons b bs => exact absurd h21 (by simp [strLeList])
  | cons a as_ ih =>
      intro l₂ h12 h21
      cases l₂ with
      | nil => exact absurd h12 (by simp [strLeList])
      | cons b bs =>
          have h12' : (if a < b then true else if b < a then false else
            strLeList as_ bs) = true := h12
          have h21' : (if b < a then true else if a < b then false else
            strLeList bs as_) = true := h21
          rcases lt_trichotomy a b with hab | hab | hab
          · rw [if_neg (lt_asymm hab), if_pos hab] at h21'
            exact absurd h21' (by simp)
          · subst hab
            rw [if_neg (lt_irrefl a), if_neg (lt_irrefl a)] at h12' h21'
            rw [ih bs h12' h21']
          · rw [if_neg (lt_asymm hab), if_pos hab] at h12'
            exact absurd h12' (by simp)

theorem strLe_total : ∀ a b : String, strLe a b = true ∨ strLe b a = true :=
  fun a b => strLeList_total a.data b.data

theorem strLe_trans : ∀ a b c : String, strLe a b = true → strLe b c = true →
    strLe a c = true :=
  fun a b c => strLeList_trans a.data b.data c.data

theorem strLe_antisymm : ∀ a b : String, strLe a b = true → strLe b a = true → a = b :=
  fun a b h1 h2 => String.toList_inj.mp (strLeList_antisymm a.data b.data h1 h2)

/-- Sorted enumeration of a finite set of strings, modelling iteration of a
Python set followed by (or combined with) `sorted`.  Defined on the
underlying multiset: with a total antisymmetric transitive order the sorted
list of a multiset is permutation-invariant. -/
def sortedAliases (s : Finset String) : List String :=
  Quot.liftOn s.val (sortLe strLe) fun _ _ h =>
    sortLe_eq_of_perm strLe_total strLe_trans strLe_antisymm h

theorem mem_sortedAliases {s : Finset String} {a : String} :
    a ∈ sortedAliases s ↔ a ∈ s := by
  rcases s with ⟨m, hn⟩
  revert hn
  refine Quot.inductionOn m ?_
  intro l hn
  show a ∈ sortLe strLe l ↔ _
  rw [mem_sortLe]
  simp [Finset.mem_mk]

theorem toFinset_sortedAliases (s : Finset String) : (sortedAliases s).toFinset = s := by
  ext a
  simp [List.mem_toFinset, mem_sortedAliases]

theorem sortedAliases_eq_nil {s : Finset String} : sortedAliases s = [] ↔ s = ∅ := by
  constructor
  · intro h
    refine Finset.eq_empty_iff_forall_not_mem.mpr fun a ha => ?_
    have := mem_sortedAliases.mpr ha
    rw [h] at this
    exact absurd this (List.not_mem_nil a)
  · intro h
    subst h
    rfl

end PySort

namespace DedupImages

/-- Perceptual hash algorithm names, the registry served by
`ImageHash.get_subclass` (src/imagedups/imagehash.py): `dct`, `mh`, `radial`. -/
inductive Alg where
  | dct
  | mh
  | radial
deriving DecidableEq, Repr

/-- Perceptual hash value of one of the three algorithms: `DctImageHash`
holds a Python int, `MhImageHash` and `RadialImageHash` hold byte strings. -/
inductive PHVal where
  | dct (n : Int)
  | mh (b : List Nat)
  | radial (b : List Nat)
deriving DecidableEq, Repr

/-- Algorithm a hash value belongs to (the subclass of the instance). -/
def phAlg : PHVal → Alg
  | .dct _ => .dct
  | .mh _ => .mh
  | .radial _ => .radial

/-- Serialization `str(value)` of a hash value (`__str__` of the
`ImageHash` subclasses). -/
def phStr : PHVal → List Char
  | .dct n => PHashSer.fmt016X n
  | .mh b => PHashSer.hexlifyUpper b
  | .radial b => PHashSer.hexlifyUpper b

/-- Deserialization `ImageHash.get_subclass(name).load(value)`: parsing is
dispatched on the algorithm name. -/
def phParse : Alg → List Char → PHVal
  | .dct, s => .dct (PHashSer.parseHexChars s)
  | .mh, s => .mh (PHashSer.unhexlify s)
  | .radial, s => .radial (PHashSer.unhexlify s)

/-- Well-formedness of a hash value: byte-string hashes hold bytes. -/
def phWF : PHVal → Prop
  | .dct _ => True
  | .mh b => ∀ x ∈ b, x < 256
  | .radial b => ∀ x ∈ b, x < 256

instance (v : PHVal) : Decidable (phWF v) :=
  match v with
  | .dct _ => isTrue trivial
  | .mh b => List.decidableBAll _ b
  | .radial b => List.decidableBAll _ b

theorem phParse_phStr {v : PHVal} (h : phWF v) : phParse (phAlg v) (phStr v) = v := by
  cases v with
  | dct n => simp [phParse, phStr, phAlg, PHashSer.parseHexChars_fmt016X]
  | mh b => simp [phParse, phStr, phAlg, PHashSer.unhexlify_hexlifyUpper h]
  | radial b => simp [phParse, phStr, phAlg, PHashSer.unhexlify_hexlifyUpper h]

/-- Model of `HashItem` (src/dedupimages/hashdb.py) in its quiescent state:
alias set, file size, prefix digest, content digest, and the per-algorithm
perceptual hashes (a dict in insertion order).  The digests are `Option`
because a freshly constructed empty instance (`HashItem()`) has `None` in
both fields; the hash value type `H` is a parameter so that the pure
structure can be used both with concrete serializable values (`PHVal`) and
with values compared by an external distance capability. -/
structure HashItem (H : Type) where
  file_names : Finset String
  file_size : Nat
  first_512_sha256 : Option (List Nat)
  content_sha256 : Option (List Nat)
  image_hash : List (Alg × H)
deriving DecidableEq

/-- Model of `HashDB`: the ordered list of items. -/
structure HashDB (H : Type) where
  items : List (HashItem H)
deriving DecidableEq

/-- Dict lookup `image_hash.get(name)` on the insertion-ordered pairs. -/
def lookupAlg {H : Type} : List (Alg × H) → Alg → Option H
  | [], _ => none
  | (k, v) :: rest, a => if k = a then some v else lookupAlg rest a

/-- Serialized form of one item, the dict built by `HashItem.dump`:
keys `names`, `size`, `first_512b_sha256`, `sha256`, and one `ph_<name>`
entry per perceptual algorithm. -/
structure ItemRecord where
  names : List String
  size : Nat
  first_512b_sha256 : Option (List Nat)
  sha256 : Option (List Nat)
  ph : List (Alg × List Char)
deriving DecidableEq

/-- Model of `HashItem.dump`.  Python enumerates the alias set in arbitrary
order (`tuple(self.file_names)`); the model picks the sorted enumeration.
`d['sha256'] = self.content_sha256` goes through the lazy property, which in
the quiescent model is the stored field. -/
def HashItem.dump (it : HashItem PHVal) : ItemRecord where
  names := PySort.sortedAliases it.file_names
  size := it.file_size
  first_512b_sha256 := it.first_512_sha256
  sha256 := it.content_sha256
  ph := it.image_hash.map fun p => (p.1, phStr p.2)

/-- Model of `HashItem.load`: `set(d['names'])`, plain fields, and each
`ph_<name>` entry parsed by the subclass registered for `name`. -/
def HashItem.load (r : ItemRecord) : HashItem PHVal where
  file_names := r.names.toFinset
  file_size := r.size
  first_512_sha256 := r.first_512b_sha256
  content_sha256 := r.sha256
  image_hash := r.ph.map fun p => (p.1, phParse p.1 p.2)

/-- Model of `HashDB.dump`. -/
def HashDB.dump (db : HashDB PHVal) : List ItemRecord :=
  db.items.map HashItem.dump

/-- Model of `HashDB.load`. -/
def HashDB.load (l : List ItemRecord) : HashDB PHVal :=
  ⟨l.map HashItem.load⟩

/-- Invariant of a live item: the `image_hash` dict has no duplicate keys,
each value belongs to the subclass its key names, and byte-string hash
values hold bytes. -/
def itemWF (it : HashItem PHVal) : Prop :=
  (it.image_hash.map Prod.fst).Nodup ∧
    ∀ p ∈ it.image_hash, phAlg p.2 = p.1 ∧ phWF p.2

/-- Invariant of a live index. -/
def dbWF (db : HashDB PHVal) : Prop := ∀ it ∈ db.items, itemWF it

instance (it : HashItem PHVal) : Decidable (itemWF it) := by
  unfold itemWF
  infer_instance

instance (db : HashDB PHVal) : Decidable (dbWF db) := by
  unfold dbWF
  infer_instance

theorem map_parse_map_str {l : List (Alg × PHVal)}
    (h : ∀ p ∈ l, phAlg p.2 = p.1 ∧ phWF p.2) :
    (l.map fun p => (p.1, phStr p.2)).map (fun p => (p.1, phParse p.1 p.2)) = l := by
  induction l with
  | nil => rfl
  | cons p tl ih =>
      obtain ⟨halg, hwf⟩ := h p (by simp)
      simp only [List.map_cons, List.cons.injEq]
      constructor
      · rw [← halg, phParse_phStr hwf, halg]
      · exact ih fun q hq => h q (by simp [hq])

theorem load_dump_item {it : HashItem PHVal} (h : itemWF it) :
    HashItem.load it.dump = it := by
  obtain ⟨fn, fs, f5, cs, ih⟩ := it
  have hmap := map_parse_map_str h.2
  simp [HashItem.dump, HashItem.load, PySort.toFinset_sortedAliases, hmap]

theorem load_dump_db {db : HashDB PHVal} (h : dbWF db) :
    HashDB.load (HashDB.dump db) = db := by
  obtain ⟨items⟩ := db
  simp only [HashDB.dump, HashDB.load, HashDB.mk.injEq, List.map_map]
  calc items.map (HashItem.load ∘ HashItem.dump)
      = items.map id := List.map_congr_left fun it hit => load_dump_item (h it hit)
    _ = items := List.map_id items

/-- Digest model of `hashlib.sha256(...).hexdigest()`: the cryptographic hash
is external; it is modeled as an injective function of its input (the
standard collision-free idealization), here the identity on the byte list. -/
def sha256d (bs : List Nat) : List Nat := bs

/-- Model of `HashItem(filename)` (the probing constructor): `None` when the
file cannot be opened (`IOError`), otherwise the alias singleton, the file
size, and both digests.  The content digest is lazy in the source and is
forced by the first non-fast comparison or by `dump`; over an immutable file
system the lazy and the eager value coincide, so the model stores it
eagerly. -/
def mkHashItem {H : Type} (fs : String → Option (List Nat)) (filename : String) :
    Option (HashItem H) :=
  (fs filename).map fun content =>
    { file_names := {filename}
      file_size := content.length
      first_512_sha256 := some (sha256d (content.take 512))
      content_sha256 := some (sha256d content)
      image_hash := [] }

/-- Model of `HashItem.binary_equal`: size and prefix digest always, content
digest only when `fast` is not requested. -/
def binary_equal {H : Type} (a other : HashItem H) (fast : Bool) : Bool :=
  a.file_size == other.file_size &&
    a.first_512_sha256 == other.first_512_sha256 &&
    (fast || a.content_sha256 == other.content_sha256)

/-- Scan loop of `HashDB.add`: first binary-equal item gets the filename as
a new alias; the result carries the updated item list and the index of the
returned (mutated-in-place) item, `none` when no item matches. -/
def addLoop {H : Type} (filename : String) (fast : Bool) (fh : HashItem H) :
    List (HashItem H) → Option (List (HashItem H) × Nat)
  | [] => none
  | it :: rest =>
      if binary_equal it fh fast then
        some ({ it with file_names := insert filename it.file_names } :: rest, 0)
      else
        (addLoop filename fast fh rest).map fun r => (it :: r.1, r.2 + 1)

/-- Model of `HashDB.add`: probe the file, scan for a binary-equal item,
otherwise append the probe as a new item.  The returned index models the
identity of the returned `HashItem` object. -/
def add {H : Type} (db : HashDB H) (fs : String → Option (List Nat))
    (filename : String) (fast_compare : Bool) : Option (HashDB H × Nat) :=
  (mkHashItem fs filename).map fun fh =>
    match addLoop filename fast_compare fh db.items with
    | some (items, i) => (⟨items⟩, i)
    | none => (⟨db.items ++ [fh]⟩, db.items.length)

/-- All ordered pairs of list elements with the first strictly before the
second, in the enumeration order of `itertools.combinations(items, 2)`. -/
def pairsC2 {α : Type} : List α → List (α × α)
  | [] => []
  | x :: rest => (rest.map fun y => (x, y)) ++ pairsC2 rest

/-- Body of the `find_pairs` loop for one pair of items: pairs lacking file
names or lacking a hash for `hash_name` are skipped, surviving pairs within
the threshold are reported under the lexicographically smallest alias of
each item. -/
def pairFn {H : Type} (dist : H → H → ℚ) (threshold : ℚ) (hash_name : Alg)
    (p : HashItem H × HashItem H) : Option (String × String × ℚ) :=
  if p.1.file_names = ∅ ∨ p.2.file_names = ∅ then none
  else
    match lookupAlg p.1.image_hash hash_name, lookupAlg p.2.image_hash hash_name with
    | some ha, some hb =>
        if dist ha hb ≤ threshold then
          match (PySort.sortedAliases p.1.file_names).head?,
              (PySort.sortedAliases p.2.file_names).head? with
          | some fa, some fb => some (fa, fb, dist ha hb)
          | _, _ => none
        else none
    | _, _ => none

/-- Model of `HashDB.find_pairs`.  The perceptual distance is the external
phash capability and enters as the parameter `dist`; the fully consumed
generator is the returned list. -/
def find_pairs {H : Type} (dist : H → H → ℚ) (threshold : ℚ) (hash_name : Alg)
    (db : HashDB H) : List (String × String × ℚ) :=
  (pairsC2 db.items).filterMap (pairFn dist threshold hash_name)

/-- Dict write `current_group[fname_b] = distance`: update in place when the
key exists, append otherwise. -/
def updAssoc : List (String × ℚ) → String → ℚ → List (String × ℚ)
  | [], b, d => [(b, d)]
  | (k, v) :: rest, b, d =>
      if k = b then (k, d) :: rest else (k, v) :: updAssoc rest b d

/-- Python tuple comparison on `(fname, distance)` pairs, as used by
`sorted(...)` when a group is finalized. -/
def pairLe (p q : String × ℚ) : Bool :=
  PySort.strLt p.1 q.1 || (p.1 == q.1 && decide (p.2 ≤ q.2))

/-- The finalized group `group_set`: members of the accumulated dict plus
the representative. -/
def groupSet (a : String) (cur : List (String × ℚ)) : Finset String :=
  insert a (cur.map Prod.fst).toFinset

/-- Loop of `HashDB.find_groups` over the stream of pairs, carrying the
finalized groups, the representative of the group being accumulated (`''`
before the first pair) and the accumulated dict.  Note the loop emits a
group only when a pair with a different first element arrives; nothing is
emitted when the stream ends. -/
def findGroupsGo : List (String × String × ℚ) → List (Finset String) → String →
    List (String × ℚ) → List (String × List (String × ℚ))
  | [], _, _, _ => []
  | (a, b, d) :: rest, reported, curA, cur =>
      if reported.any fun g => decide (a ∈ g) && decide (b ∈ g) then
        findGroupsGo rest reported curA cur
      else if curA = a then
        findGroupsGo rest reported curA (updAssoc cur b d)
      else if curA = "" then
        findGroupsGo rest reported a [(b, d)]
      else
        (curA, PySort.sortLe pairLe cur) ::
          findGroupsGo rest (reported ++ [groupSet curA cur]) a [(b, d)]

/-- Model of `HashDB.find_groups`: group the `find_pairs` stream by first
element, skipping pairs whose two members co-occur in an already finalized
group. -/
def find_groups {H : Type} (dist : H → H → ℚ) (threshold : ℚ) (hash_name : Alg)
    (db : HashDB H) : List (String × List (String × ℚ)) :=
  findGroupsGo (find_pairs dist threshold hash_name db) [] "" []

/-- Loop of `HashDB.query`: unlike `find_pairs`, items lacking a hash for
`hash_name` are not filtered out, so `imghash.distance(None)` raises
(`AttributeError` inside the distance method); `sorted(...)[0]` on an item
without aliases raises as well.  Raising is modeled by `Except.error`. -/
def queryGo {H : Type} (dist : H → H → ℚ) (imghash : H) (threshold : ℚ)
    (hash_name : Alg) : List (HashItem H) → Except String (List (String × ℚ))
  | [] => .ok []
  | it :: rest =>
      match lookupAlg it.image_hash hash_name with
      | none => .error "AttributeError: NoneType has no attribute"
      | some ih =>
          if dist imghash ih ≤ threshold then
            match (PySort.sortedAliases it.file_names).head? with
            | none => .error "IndexError: list index out of range"
            | some fname =>
                (queryGo dist imghash threshold hash_name rest).map
                  fun l => (fname, dist imghash ih) :: l
          else queryGo dist imghash threshold hash_name rest

/-- Model of `HashDB.query`. -/
def query {H : Type} (dist : H → H → ℚ) (imghash : H) (threshold : ℚ)
    (hash_name : Alg) (db : HashDB H) : Except String (List (String × ℚ)) :=
  queryGo dist imghash threshold hash_name db.items

/-- Character-list version of Python's `str.startswith`: `strStarts p s`
holds when `p` is an initial run of `s`. -/
def strStarts : List Char → List Char → Bool
  | [], _ => true
  | _ :: _, [] => false
  | a :: as_, b :: bs => a == b && strStarts as_ bs

/-- Python `s.startswith(p)`. -/
def startswith (s p : String) : Bool := strStarts p.data s.data

/-- Body of the `list_top_paths` loop for one alias directory: skip the
directory when an already selected path is its initial run, otherwise drop
every selected path it is an initial run of and select it. -/
def ltpStep (paths : List String) (dirname0 : String) : List String :=
  if paths.any fun p => startswith dirname0 p then paths
  else (paths.filter fun p => ! startswith p dirname0) ++ [dirname0]

/-- Model of `HashDB.list_top_paths`.  `os.path.dirname` is external and
enters as the parameter `dirname`; Python enumerates each alias set in
arbitrary order and the model uses the sorted enumeration; the final
`paths.sort()` is the stable sort. -/
def list_top_paths {H : Type} (dirname : String → String) (db : HashDB H) :
    List String :=
  PySort.sortLe PySort.strLe
    ((db.items.flatMap fun it =>
      (PySort.sortedAliases it.file_names).map dirname).foldl ltpStep [])

end DedupImages

namespace ImagedupsOld

/-- Model of the per-directory `HashDB` of src/imagedups.py: an ordered map
from file name to perceptual hash (`OrderedDict`) plus the creation
timestamp (`int(time.time())`).  The hash type `H` is the external
`ImageHash` capability. -/
structure HashDB (H : Type) where
  hashes : List (String × H)
  timestamp : Nat
deriving DecidableEq

/-- Association-list lookup, modelling dict access. -/
def lookupStr {H : Type} : List (String × H) → String → Option H
  | [], _ => none
  | (k, v) :: rest, f => if k = f then some v else lookupStr rest f

/-- Dict assignment `self._hashes[fname] = imghash`: an existing key keeps
its position and gets the new value, a fresh key is appended. -/
def assocUpd {H : Type} : List (String × H) → String → H → List (String × H)
  | [], f, h => [(f, h)]
  | (k, v) :: rest, f, h =>
      if k = f then (k, h) :: rest else (k, v) :: assocUpd rest f h

/-- Model of `HashDB.get`. -/
def HashDB.get {H : Type} (db : HashDB H) (fname : String) : Option H :=
  lookupStr db.hashes fname

/-- Model of `HashDB.add`. -/
def HashDB.add {H : Type} (db : HashDB H) (fname : String) (imghash : H) :
    HashDB H :=
  { db with hashes := assocUpd db.hashes fname imghash }

/-- Stat data of a file as used by `ImageDups.time_changed`; `os.stat`
times are modeled as the integers `time_changed` truncates them to. -/
structure FileMeta where
  st_ctime : Nat
  st_mtime : Nat
deriving DecidableEq

/-- Model of `ImageDups.time_changed`: `int(max(stat.st_ctime, stat.st_mtime))`. -/
def time_changed (m : FileMeta) : Nat := max m.st_ctime m.st_mtime

/-- Model of `ImageDups.update_db` (src/imagedups.py): for each listed file,
reuse the cached hash unless it is absent or the database timestamp is older
than `time_changed`; otherwise invoke the external provider `compute`
(`None` models an `IOError`, after which the file is skipped).  The result
is the new database (built with timestamp `now`) together with the log of
file names for which `compute` was invoked, in invocation order; `stat`
models `os.stat` on the joined path.  The final `save` is modeled
separately.  `updStep` is the loop body for one file. -/
def updStep {H : Type} (old : HashDB H) (stat : String → FileMeta)
    (compute : String → Option H) (acc : HashDB H × List String) (fname : String) :
    HashDB H × List String :=
  match acc, old.get fname with
  | (ndb, log), some imghash =>
      if old.timestamp < time_changed (stat fname) then
        match compute fname with
        | some h => (ndb.add fname h, log ++ [fname])
        | none => (ndb, log ++ [fname])
      else (ndb.add fname imghash, log)
  | (ndb, log), none =>
      match compute fname with
      | some h => (ndb.add fname h, log ++ [fname])
      | none => (ndb, log ++ [fname])

def update_db {H : Type} (old : HashDB H) (now : Nat) (stat : String → FileMeta)
    (compute : String → Option H) (filenames : List String) :
    HashDB H × List String :=
  filenames.foldl (updStep old stat compute) (⟨[], now⟩, [])

/-- Condition under which `update_db` invokes the provider `compute` for a
file: no cached hash, or the cached database is older than the file. -/
def computesB {H : Type} (old : HashDB H) (stat : String → FileMeta)
    (fname : String) : Bool :=
  (old.get fname).isNone || decide (old.timestamp < time_changed (stat fname))

/-- On-disk shape of one database file written by `HashDB.save`: the
`#algorithm` line, the `#timestamp` line, and one line per hash entry. -/
structure DBFileData (H : Type) where
  algorithm : String
  timestamp : Nat
  entries : List (String × H)
deriving DecidableEq

/-- Model of `HashDB.save` as a transformation of the file system (a partial
map from path to database file content): an empty database is saved as the
absence of a file (`os.unlink`, a missing target being ignored), a non-empty
one overwrites the target with all entries. -/
def save {H : Type} (db : HashDB H) (algorithm : String) (dbfile : String)
    (fs : String → Option (DBFileData H)) : String → Option (DBFileData H) :=
  if db.hashes.isEmpty then
    fun q => if q = dbfile then none else fs q
  else
    fun q => if q = dbfile then some ⟨algorithm, db.timestamp, db.hashes⟩ else fs q

end ImagedupsOld

namespace ImagedupsPkg

/-- Python exception classes relevant to `ImageDups.load_database`
(src/imagedups/imagedups.py): the `except IOError` clause catches exactly
the `OSError` family. -/
inductive PyExc where
  | ioError
  | valueError
deriving DecidableEq, Repr

/-- State of the backing database file.  Reading it raises: a missing file
`FileNotFoundError` (an `OSError`/`IOError`); an invalid gzip header
`gzip.BadGzipFile` (an `OSError`); a well-gzipped file whose payload is not
valid JSON `json.JSONDecodeError` (a `ValueError`, not an `OSError`).
An intact file yields its record list. -/
inductive DBFileState where
  | missing
  | badGzip
  | badJson
  | intact (records : List DedupImages.ItemRecord)

/-- Outcome of `gzip.open` + `json.load` on the backing file. -/
def readDbFile : DBFileState → Except PyExc (List DedupImages.ItemRecord)
  | .missing => .error .ioError
  | .badGzip => .error .ioError
  | .badJson => .error .valueError
  | .intact records => .ok records

/-- Model of `ImageDups.load_database`: the read is wrapped in
`except IOError`, which re-raises when `must_exist` and otherwise keeps the
fresh empty `HashDB` from `__init__`; any non-`IOError` exception
propagates.  The `HashItem`/`HashDB` dump-load code of imagedups/hashdb.py
is identical to the dedupimages variant, so the model reuses
`DedupImages.HashDB.load`. -/
def load_database (st : DBFileState) (must_exist : Bool) :
    Except PyExc (DedupImages.HashDB DedupImages.PHVal) :=
  match readDbFile st with
  | .ok records => .ok (DedupImages.HashDB.load records)
  | .error e =>
      match e with
      | .ioError => if must_exist then .error .ioError else .ok ⟨[]⟩
      | .valueError => .error .valueError

/-- Worker-pool size used by `ImageDups.update_db`
(src/imagedups/imagedups.py): `max_workers=os.cpu_count() or 4`.  Python's
`or` yields 4 exactly when `os.cpu_count()` is falsy, that is `None` (count
undetermined) or 0. -/
def update_db_max_workers (cpu_count : Option Nat) : Nat :=
  match cpu_count with
  | none => 4
  | some n => if n = 0 then 4 else n

end ImagedupsPkg

/-! Concrete inputs and claim theorems. -/

/-- Distance table for the two-item index of claim C1: the two stored dct
hash values 0 and 1 are at distance 0, everything else is far. -/
def distC1 : Nat → Nat → ℚ := fun x y =>
  if (x = 0 ∧ y = 1) ∨ (x = 1 ∧ y = 0) then 0 else 1

/-- Two-item index for claim C1: `A.jpg` and `C.jpg`, both hashed with the
`dct` algorithm, perceptually close. -/
def dbC1 : DedupImages.HashDB Nat := ⟨[
  { file_names := {"A.jpg"}, file_size := 1000, first_512_sha256 := some [1],
    content_sha256 := some [1], image_hash := [(.dct, 0)] },
  { file_names := {"C.jpg"}, file_size := 900, first_512_sha256 := some [2],
    content_sha256 := some [2], image_hash := [(.dct, 1)] }]⟩

/-- Claim C1: `findGroups` is said to emit one group per maximal run of
consecutive `find_pairs` results sharing a first element; in particular when
`find_pairs` yields exactly the single pair `(A.jpg, C.jpg, 0)`,
`findGroups` should yield the group `(A.jpg, [(C.jpg, 0)])`.  Evaluating the
code on such an index: the pair is reported, but `find_groups` emits nothing
at all, because the loop never finalizes the group still being accumulated
when the pair stream ends. -/
theorem claim_C1 :
    DedupImages.find_pairs distC1 0 .dct dbC1 = [("A.jpg", "C.jpg", 0)] ∧
    DedupImages.find_groups distC1 0 .dct dbC1 = [] :=
  ⟨by decide, by decide⟩

/-- Distance table for the five-item chain of claim C4: exactly the item
pairs (x,a), (x,b), (a,b), (a,c), (c,q) are near. -/
def distC4 : Nat → Nat → ℚ := fun x y =>
  if (x, y) ∈ ([(0, 1), (0, 2), (1, 2), (1, 3), (3, 4)] : List (Nat × Nat)) then 0 else 1

/-- Item builder for claim C4's index. -/
def mkItC4 (s : String) (h : Nat) : DedupImages.HashItem Nat :=
  { file_names := {s}, file_size := 1, first_512_sha256 := some [h],
    content_sha256 := some [h], image_hash := [(.dct, h)] }

/-- Five-item index for claim C4 realizing the pair stream
(x,a), (x,b), (a,b), (a,c), (c,q). -/
def dbC4 : DedupImages.HashDB Nat :=
  ⟨[mkItC4 "x" 0, mkItC4 "a" 1, mkItC4 "b" 2, mkItC4 "c" 3, mkItC4 "q" 4]⟩

/-- Claim C4: `findGroups` is said never to add an alias `b` to a group
represented by `a` when `a` and `b` already co-occur in an earlier finalized
group.  Evaluating the code on the five-item chain: the first finalized
group is `(x, [a, b])`, containing both `a` and `b`, yet the second emitted
group is `(a, [(b, 0), (c, 0)])`, which adds `b` to the group represented by
`a`.  The membership check happens when a pair is accumulated, before the
`x` group is finalized, not when the `a` group is emitted. -/
theorem claim_C4 :
    DedupImages.find_groups distC4 0 .dct dbC4 =
      [("x", [("a", 0), ("b", 0)]), ("a", [("b", 0), ("c", 0)])] ∧
    "a" ∈ DedupImages.groupSet "x" [("a", 0), ("b", 0)] ∧
    "b" ∈ DedupImages.groupSet "x" [("a", 0), ("b", 0)] :=
  ⟨by decide, by decide, by decide⟩

/-- Claim C6 counterexample: a corrupt backing file whose gzip layer is
intact but whose payload is not valid JSON raises `ValueError`
(`json.JSONDecodeError`), which the `except IOError` clause does not catch,
so `load_database` propagates the failure even when the caller did not
demand an existing database — instead of yielding an empty index. -/
theorem claim_C6_counterexample :
    ImagedupsPkg.load_database .badJson false = .error .valueError ∧
    ∀ db, ImagedupsPkg.load_database .badJson false ≠ .ok db := by
  refine ⟨rfl, fun db h => ?_⟩
  simp [ImagedupsPkg.load_database, ImagedupsPkg.readDbFile] at h

/-- Claim C6 (amended): failures that surface as `IOError` (missing file,
invalid gzip header) yield an empty index unless the caller demands an
existing database, in which case they propagate; corruption below the gzip
layer (invalid JSON) propagates regardless of `must_exist`; a successful
load of an intact file yields one identity per record, hence a non-empty
index for a non-empty record list. -/
theorem claim_C6 (must_exist : Bool) :
    (ImagedupsPkg.load_database .missing false = .ok ⟨[]⟩ ∧
     ImagedupsPkg.load_database .badGzip false = .ok ⟨[]⟩) ∧
    (ImagedupsPkg.load_database .missing true = .error .ioError ∧
     ImagedupsPkg.load_database .badGzip true = .error .ioError) ∧
    ImagedupsPkg.load_database .badJson must_exist = .error .valueError ∧
    ∀ records, ImagedupsPkg.load_database (.intact records) must_exist =
        .ok (DedupImages.HashDB.load records) ∧
      (records ≠ [] → (DedupImages.HashDB.load records).items ≠ []) := by
  refine ⟨⟨rfl, rfl⟩, ⟨rfl, rfl⟩, rfl, fun records => ⟨rfl, fun h => ?_⟩⟩
  simp [DedupImages.HashDB.load]
  exact h

/-- A record for the C6 witness. -/
def recC6 : DedupImages.ItemRecord := ⟨["a"], 0, none, none, []⟩

/-- Witness for claim C6 at concrete inputs. -/
theorem claim_C6_witness :
    ImagedupsPkg.load_database .missing false = .ok ⟨[]⟩ ∧
    ImagedupsPkg.load_database (.intact [recC6]) true =
      .ok (DedupImages.HashDB.load [recC6]) ∧
    (DedupImages.HashDB.load [recC6]).items ≠ [] :=
  ⟨(claim_C6 false).1.1, ((claim_C6 true).2.2.2 [recC6]).1,
    ((claim_C6 true).2.2.2 [recC6]).2 (by decide)⟩

/-- Claim C7: saving an index with zero identities deletes any existing
database file at the target path and writes nothing; saving a non-empty
index writes a file holding the algorithm line, the timestamp line and all
records. -/
theorem claim_C7 {H : Type} (db : ImagedupsOld.HashDB H) (algorithm : String)
    (dbfile : String) (fs : String → Option (ImagedupsOld.DBFileData H)) :
    (db.hashes = [] → ImagedupsOld.save db algorithm dbfile fs dbfile = none) ∧
    (db.hashes ≠ [] →
      ImagedupsOld.save db algorithm dbfile fs dbfile =
        some ⟨algorithm, db.timestamp, db.hashes⟩) := by
  constructor
  · intro h
    simp [ImagedupsOld.save, h]
  · intro h
    cases hh : db.hashes with
    | nil => exact absurd hh h
    | cons a l => simp [ImagedupsOld.save, hh]

/-- Empty database for the C7 witness. -/
def dbC7empty : ImagedupsOld.HashDB Nat := ⟨[], 7⟩

/-- Non-empty database for the C7 witness. -/
def dbC7full : ImagedupsOld.HashDB Nat := ⟨[("a.jpg", 5)], 9⟩

/-- A pre-existing file system for the C7 witness: a stale database file is
present at the target path. -/
def fsC7 : String → Option (ImagedupsOld.DBFileData Nat) :=
  fun q => if q = ".imagehash_dct" then some ⟨"dct", 1, [("old", 0)]⟩ else none

/-- Witness for claim C7 at concrete inputs: the empty save erases the stale
file, the non-empty save writes all records. -/
theorem claim_C7_witness :
    ImagedupsOld.save dbC7empty "dct" ".imagehash_dct" fsC7 ".imagehash_dct" = none ∧
    ImagedupsOld.save dbC7full "dct" ".imagehash_dct" fsC7 ".imagehash_dct" =
      some ⟨"dct", 9, [("a.jpg", 5)]⟩ :=
  ⟨(claim_C7 dbC7empty "dct" ".imagehash_dct" fsC7).1 rfl,
    (claim_C7 dbC7full "dct" ".imagehash_dct" fsC7).2 (by decide)⟩

/-- Claim C8 counterexample: on a machine reporting 2 CPUs the worker pool
is sized 2, not the claimed minimum of 4 — `os.cpu_count() or 4` falls back
to 4 only when the CPU count is unavailable, it is not a lower bound. -/
theorem claim_C8_counterexample :
    ImagedupsPkg.update_db_max_workers (some 2) = 2 ∧
    ¬ 4 ≤ ImagedupsPkg.update_db_max_workers (some 2) :=
  ⟨rfl, by decide⟩

/-- Claim C8 (amended): the pool size equals the reported hardware
parallelism whenever it is reported non-zero; 4 is only the fallback used
when `os.cpu_count()` reports nothing (or zero). -/
theorem claim_C8 :
    (∀ n : Nat, n ≠ 0 → ImagedupsPkg.update_db_max_workers (some n) = n) ∧
    ImagedupsPkg.update_db_max_workers none = 4 ∧
    ImagedupsPkg.update_db_max_workers (some 0) = 4 := by
  refine ⟨fun n hn => ?_, rfl, rfl⟩
  simp [ImagedupsPkg.update_db_max_workers, hn]

/-- Witness for claim C8 at a concrete CPU count. -/
theorem claim_C8_witness : ImagedupsPkg.update_db_max_workers (some 8) = 8 :=
  claim_C8.1 8 (by decide)

theorem addLoop_none {H : Type} (filename : String) (fast : Bool)
    (fh : DedupImages.HashItem H) (items : List (DedupImages.HashItem H))
    (h : ∀ it ∈ items, DedupImages.binary_equal it fh fast = false) :
    DedupImages.addLoop filename fast fh items = none := by
  induction items with
  | nil => rfl
  | cons it rest ih =>
      simp [DedupImages.addLoop, h it (List.mem_cons_self it rest),
        ih fun x hx => h x (List.mem_cons_of_mem it hx)]

/-- Claim C2: adding two byte-identical files to an empty index returns the
same identity (the item at index 0) for both calls, and afterwards its alias
set is `{f1, f2}`; adding a file that is binary-equal to no existing item
appends a fresh identity whose alias set is the singleton of that path and
returns it. -/
theorem claim_C2 {H : Type} :
    (∀ (fs : String → Option (List Nat)) (f1 f2 : String) (c : List Nat),
      fs f1 = some c → fs f2 = some c →
      ∃ it1 it2 : DedupImages.HashItem H,
        DedupImages.add ⟨[]⟩ fs f1 false = some (⟨[it1]⟩, 0) ∧
        it1.file_names = {f1} ∧
        DedupImages.add ⟨[it1]⟩ fs f2 false = some (⟨[it2]⟩, 0) ∧
        it2.file_names = ({f1, f2} : Finset String)) ∧
    (∀ (db : DedupImages.HashDB H) (fs : String → Option (List Nat))
      (f : String) (fh : DedupImages.HashItem H),
      DedupImages.mkHashItem fs f = some fh →
      (∀ it ∈ db.items, DedupImages.binary_equal it fh false = false) →
      DedupImages.add db fs f false = some (⟨db.items ++ [fh]⟩, db.items.length) ∧
      fh.file_names = {f}) := by
  constructor
  · intro fs f1 f2 c h1 h2
    refine ⟨⟨{f1}, c.length, some (DedupImages.sha256d (c.take 512)),
        some (DedupImages.sha256d c), []⟩,
      ⟨{f2, f1}, c.length, some (DedupImages.sha256d (c.take 512)),
        some (DedupImages.sha256d c), []⟩, ?_, rfl, ?_, Finset.pair_comm f2 f1⟩
    · simp [DedupImages.add, DedupImages.mkHashItem, h1, DedupImages.addLoop]
    · simp [DedupImages.add, DedupImages.mkHashItem, h2, DedupImages.addLoop,
        DedupImages.binary_equal]
  · intro db fs f fh hmk hnone
    have hloop := addLoop_none f false fh db.items hnone
    refine ⟨by simp [DedupImages.add, hmk, hloop], ?_⟩
    cases hfs : fs f with
    | none => simp [DedupImages.mkHashItem, hfs] at hmk
    | some c =>
        simp [DedupImages.mkHashItem, hfs] at hmk
        rw [← hmk]

/-- File system for the C2 witness: two byte-identical files and one
different file. -/
def fsC2 : String → Option (List Nat) := fun s =>
  if s = "dir/a.jpg" ∨ s = "dir/b.jpg" then some [7, 7]
  else if s = "dir/z.jpg" then some [9] else none

/-- Pre-existing index for the C2 witness, holding the different file. -/
def dbC2 : DedupImages.HashDB Nat := ⟨[⟨{"dir/z.jpg"}, 1, some [9], some [9], []⟩]⟩

/-- The probe item `HashItem("dir/a.jpg")` over `fsC2`. -/
def fhC2 : DedupImages.HashItem Nat := ⟨{"dir/a.jpg"}, 2, some [7, 7], some [7, 7], []⟩

/-- Witness for claim C2 at concrete inputs. -/
theorem claim_C2_witness :
    (∃ it1 it2 : DedupImages.HashItem Nat,
      DedupImages.add ⟨[]⟩ fsC2 "dir/a.jpg" false = some (⟨[it1]⟩, 0) ∧
      it1.file_names = {"dir/a.jpg"} ∧
      DedupImages.add ⟨[it1]⟩ fsC2 "dir/b.jpg" false = some (⟨[it2]⟩, 0) ∧
      it2.file_names = ({"dir/a.jpg", "dir/b.jpg"} : Finset String)) ∧
    (DedupImages.add dbC2 fsC2 "dir/a.jpg" false =
        some (⟨dbC2.items ++ [fhC2]⟩, dbC2.items.length) ∧
      fhC2.file_names = {"dir/a.jpg"}) :=
  ⟨claim_C2.1 fsC2 "dir/a.jpg" "dir/b.jpg" [7, 7] rfl rfl,
   claim_C2.2 dbC2 fsC2 "dir/a.jpg" fhC2 rfl (by decide)⟩

/-- Claim C3: the persistent round trip is lossless — loading the dump of a
well-formed index reproduces it exactly: same identities in the same order,
and per identity the same alias set, file size, prefix and content digests,
and the same perceptual hash value for every computed algorithm. -/
theorem claim_C3 (db : DedupImages.HashDB DedupImages.PHVal)
    (h : DedupImages.dbWF db) :
    DedupImages.HashDB.load (DedupImages.HashDB.dump db) = db :=
  DedupImages.load_dump_db h

/-- Index for the C3 witness: one identity with two aliases and all three
perceptual hash algorithms computed. -/
def dbC3 : DedupImages.HashDB DedupImages.PHVal :=
  ⟨[⟨{"/p/b.jpg", "/p/a.jpg"}, 3, some [1, 2], some [1, 2, 3],
    [(.dct, .dct 5), (.mh, .mh [0, 255]), (.radial, .radial [17])]⟩]⟩

/-- Witness for claim C3 at a concrete index. -/
theorem claim_C3_witness :
    DedupImages.dbWF dbC3 ∧
    DedupImages.HashDB.load (DedupImages.HashDB.dump dbC3) = dbC3 :=
  ⟨by decide, claim_C3 dbC3 (by decide)⟩

theorem filterMap_eq_nil_of_none {α β : Type} (f : α → Option β) (l : List α)
    (h : ∀ a ∈ l, f a = none) : l.filterMap f = [] := by
  induction l with
  | nil => rfl
  | cons x xs ih =>
      rw [List.filterMap_cons, h x (List.mem_cons_self x xs)]
      exact ih fun a ha => h a (List.mem_cons_of_mem x ha)

theorem pairFn_none_left {H : Type} (dist : H → H → ℚ) (thr : ℚ) (alg : DedupImages.Alg)
    (p : DedupImages.HashItem H × DedupImages.HashItem H)
    (h : DedupImages.lookupAlg p.1.image_hash alg = none) :
    DedupImages.pairFn dist thr alg p = none := by
  by_cases hn : p.1.file_names = ∅ ∨ p.2.file_names = ∅
  · simp [DedupImages.pairFn, hn]
  · simp [DedupImages.pairFn, hn, h]

theorem pairFn_none_right {H : Type} (dist : H → H → ℚ) (thr : ℚ) (alg : DedupImages.Alg)
    (p : DedupImages.HashItem H × DedupImages.HashItem H)
    (h : DedupImages.lookupAlg p.2.image_hash alg = none) :
    DedupImages.pairFn dist thr alg p = none := by
  by_cases hn : p.1.file_names = ∅ ∨ p.2.file_names = ∅
  · simp [DedupImages.pairFn, hn]
  · cases hx : DedupImages.lookupAlg p.1.image_hash alg with
    | none => simp [DedupImages.pairFn, hn, hx]
    | some ha => simp [DedupImages.pairFn, hn, hx, h]

theorem queryGo_error {H : Type} (dist : H → H → ℚ) (qh : H) (thr : ℚ)
    (alg : DedupImages.Alg) :
    ∀ items : List (DedupImages.HashItem H),
      (∃ it ∈ items, DedupImages.lookupAlg it.image_hash alg = none) →
      ∃ e, DedupImages.queryGo dist qh thr alg items = .error e := by
  intro items
  induction items with
  | nil => rintro ⟨it, hmem, _⟩; exact absurd hmem (List.not_mem_nil it)
  | cons x rest ih =>
      rintro ⟨it, hmem, hnone⟩
      rcases List.mem_cons.mp hmem with rfl | hmem2
      · exact ⟨"AttributeError: NoneType has no attribute",
          by simp [DedupImages.queryGo, hnone]⟩
      · cases hx : DedupImages.lookupAlg x.image_hash alg with
        | none => exact ⟨"AttributeError: NoneType has no attribute",
            by simp [DedupImages.queryGo, hx]⟩
        | some ihash =>
            obtain ⟨e, he⟩ := ih ⟨it, hmem2, hnone⟩
            by_cases hd : dist qh ihash ≤ thr
            · cases hh : (PySort.sortedAliases x.file_names).head? with
              | none => exact ⟨"IndexError: list index out of range",
                  by simp [DedupImages.queryGo, hx, hd, hh]⟩
              | some fn =>
                  exact ⟨e, by simp [DedupImages.queryGo, hx, hd, hh, he, Except.map]⟩
            · exact ⟨e, by simp [DedupImages.queryGo, hx, hd, he]⟩

theorem queryGo_ok {H : Type} (dist : H → H → ℚ) (qh : H) (thr : ℚ)
    (alg : DedupImages.Alg) :
    ∀ items : List (DedupImages.HashItem H),
      (∀ it ∈ items, (DedupImages.lookupAlg it.image_hash alg).isSome ∧
        it.file_names ≠ ∅) →
      ∃ l, DedupImages.queryGo dist qh thr alg items = .ok l := by
  intro items
  induction items with
  | nil => exact fun _ => ⟨[], rfl⟩
  | cons x rest ih =>
      intro h
      obtain ⟨hs, hne⟩ := h x (List.mem_cons_self x rest)
      obtain ⟨ihash, hx⟩ := Option.isSome_iff_exists.mp hs
      obtain ⟨l, hl⟩ := ih fun it hit => h it (List.mem_cons_of_mem x hit)
      have hsa : PySort.sortedAliases x.file_names ≠ [] := fun hnil =>
        hne (PySort.sortedAliases_eq_nil.mp hnil)
      by_cases hd : dist qh ihash ≤ thr
      · cases hsac : PySort.sortedAliases x.file_names with
        | nil => exact absurd hsac hsa
        | cons fn tl =>
            exact ⟨(fn, dist qh ihash) :: l,
              by simp [DedupImages.queryGo, hx, hd, hsac, hl, Except.map]⟩
      · exact ⟨l, by simp [DedupImages.queryGo, hx, hd, hl]⟩

theorem find_pairs_skip_hashless {H : Type} (dist : H → H → ℚ) (thr : ℚ)
    (alg : DedupImages.Alg) (it : DedupImages.HashItem H)
    (hnone : DedupImages.lookupAlg it.image_hash alg = none) :
    ∀ pre post : List (DedupImages.HashItem H),
      DedupImages.find_pairs dist thr alg ⟨pre ++ it :: post⟩ =
        DedupImages.find_pairs dist thr alg ⟨pre ++ post⟩ := by
  intro pre
  induction pre with
  | nil =>
      intro post
      show ((DedupImages.pairsC2 (it :: post)).filterMap _) = _
      rw [show DedupImages.pairsC2 (it :: post) =
        (post.map fun y => (it, y)) ++ DedupImages.pairsC2 post from rfl]
      rw [List.filterMap_append,
        filterMap_eq_nil_of_none _ _ fun a ha => ?_, List.nil_append]
      · rfl
      · obtain ⟨y, _, rfl⟩ := List.mem_map.mp ha
        exact pairFn_none_left dist thr alg (it, y) hnone
  | cons x pre2 ih =>
      intro post
      have hmid : ((pre2 ++ it :: post).map fun y => (x, y)).filterMap
          (DedupImages.pairFn dist thr alg) =
          ((pre2 ++ post).map fun y => (x, y)).filterMap
            (DedupImages.pairFn dist thr alg) := by
        rw [List.map_append, List.map_append, List.map_cons,
          List.filterMap_append, List.filterMap_append, List.filterMap_cons,
          pairFn_none_right dist thr alg (x, it) hnone]
      have ih2 := ih post
      simp only [DedupImages.find_pairs, List.cons_append] at ih2 ⊢
      rw [show DedupImages.pairsC2 (x :: (pre2 ++ it :: post)) =
        ((pre2 ++ it :: post).map fun y => (x, y)) ++
          DedupImages.pairsC2 (pre2 ++ it :: post) from rfl]
      rw [show DedupImages.pairsC2 (x :: (pre2 ++ post)) =
        ((pre2 ++ post).map fun y => (x, y)) ++
          DedupImages.pairsC2 (pre2 ++ post) from rfl]
      rw [List.filterMap_append, List.filterMap_append, hmid, ih2]

/-- Claim C10: `query` does not filter out identities lacking a hash for the
requested algorithm — when any item lacks it, the distance method is applied
to the absent (`None`) stored hash and the call raises; when every identity
carries a hash for the algorithm (and has aliases to report), `query`
completes normally.  `find_pairs`, in contrast, silently skips a hashless
identity: removing it from the index does not change the output. -/
theorem claim_C10 {H : Type} (dist : H → H → ℚ) (imghash : H) (threshold : ℚ)
    (alg : DedupImages.Alg) :
    (∀ db : DedupImages.HashDB H,
      (∃ it ∈ db.items, DedupImages.lookupAlg it.image_hash alg = none) →
      ∃ e, DedupImages.query dist imghash threshold alg db = .error e) ∧
    (∀ db : DedupImages.HashDB H,
      (∀ it ∈ db.items, (DedupImages.lookupAlg it.image_hash alg).isSome ∧
        it.file_names ≠ ∅) →
      ∃ l, DedupImages.query dist imghash threshold alg db = .ok l) ∧
    (∀ (pre post : List (DedupImages.HashItem H)) (it : DedupImages.HashItem H),
      DedupImages.lookupAlg it.image_hash alg = none →
      DedupImages.find_pairs dist threshold alg ⟨pre ++ it :: post⟩ =
        DedupImages.find_pairs dist threshold alg ⟨pre ++ post⟩) :=
  ⟨fun db h => queryGo_error dist imghash threshold alg db.items h,
   fun db h => queryGo_ok dist imghash threshold alg db.items h,
   fun pre post it h => find_pairs_skip_hashless dist threshold alg it h pre post⟩

/-- Hashless item for the C10 witness. -/
def itC10n : DedupImages.HashItem Nat := ⟨{"n.jpg"}, 1, some [1], some [1], []⟩

/-- Hashed item for the C10 witness. -/
def itC10h : DedupImages.HashItem Nat := ⟨{"h.jpg"}, 1, some [2], some [2], [(.dct, 0)]⟩

/-- Distance capability for the C10 witness. -/
def distC10 : Nat → Nat → ℚ := fun _ _ => 0

/-- Witness for claim C10 at concrete inputs. -/
theorem claim_C10_witness :
    (∃ e, DedupImages.query distC10 0 0 .dct ⟨[itC10h, itC10n]⟩ = .error e) ∧
    (∃ l, DedupImages.query distC10 0 0 .dct ⟨[itC10h]⟩ = .ok l) ∧
    DedupImages.find_pairs distC10 0 .dct ⟨[itC10h] ++ itC10n :: [itC10h]⟩ =
      DedupImages.find_pairs distC10 0 .dct ⟨[itC10h] ++ [itC10h]⟩ :=
  ⟨(claim_C10 distC10 0 0 .dct).1 ⟨[itC10h, itC10n]⟩
      ⟨itC10n, by decide, by decide⟩,
   (claim_C10 distC10 0 0 .dct).2.1 ⟨[itC10h]⟩ (by decide),
   (claim_C10 distC10 0 0 .dct).2.2 [itC10h] [itC10h] itC10n (by decide)⟩

theorem lookupStr_assocUpd_self {H : Type} (l : List (String × H)) (k : String) (v : H) :
    ImagedupsOld.lookupStr (ImagedupsOld.assocUpd l k v) k = some v := by
  induction l with
  | nil => simp [ImagedupsOld.assocUpd, ImagedupsOld.lookupStr]
  | cons p rest ih =>
      rcases p with ⟨k2, v2⟩
      by_cases h : k2 = k
      · simp [ImagedupsOld.assocUpd, ImagedupsOld.lookupStr, h]
      · simp [ImagedupsOld.assocUpd, ImagedupsOld.lookupStr, h, ih]

theorem lookupStr_assocUpd_ne {H : Type} (l : List (String × H)) (k k2 : String)
    (v : H) (h : k ≠ k2) :
    ImagedupsOld.lookupStr (ImagedupsOld.assocUpd l k v) k2 =
      ImagedupsOld.lookupStr l k2 := by
  induction l with
  | nil => simp [ImagedupsOld.assocUpd, ImagedupsOld.lookupStr, h]
  | cons p rest ih =>
      rcases p with ⟨k3, v3⟩
      by_cases h3 : k3 = k
      · subst h3
        simp [ImagedupsOld.assocUpd, ImagedupsOld.lookupStr, h]
      · simp [ImagedupsOld.assocUpd, ImagedupsOld.lookupStr, h3, ih]

theorem updStep_snd {H : Type} (old : ImagedupsOld.HashDB H)
    (st : String → ImagedupsOld.FileMeta) (cp : String → Option H)
    (ndb : ImagedupsOld.HashDB H) (log : List String) (fname : String) :
    (ImagedupsOld.updStep old st cp (ndb, log) fname).2 =
      if ImagedupsOld.computesB old st fname then log ++ [fname] else log := by
  cases hg : old.get fname with
  | none =>
      cases hc : cp fname with
      | none => simp [ImagedupsOld.updStep, ImagedupsOld.computesB, hg, hc]
      | some h => simp [ImagedupsOld.updStep, ImagedupsOld.computesB, hg, hc]
  | some v =>
      by_cases ht : old.timestamp < ImagedupsOld.time_changed (st fname)
      · cases hc : cp fname with
        | none => simp [ImagedupsOld.updStep, ImagedupsOld.computesB, hg, ht, hc]
        | some h => simp [ImagedupsOld.updStep, ImagedupsOld.computesB, hg, ht, hc]
      · simp [ImagedupsOld.updStep, ImagedupsOld.computesB, hg, ht]

theorem updStep_fst_get_ne {H : Type} (old : ImagedupsOld.HashDB H)
    (st : String → ImagedupsOld.FileMeta) (cp : String → Option H)
    (ndb : ImagedupsOld.HashDB H) (log : List String) (fname fname2 : String)
    (h : fname ≠ fname2) :
    ((ImagedupsOld.updStep old st cp (ndb, log) fname).1).get fname2 =
      ndb.get fname2 := by
  cases hg : old.get fname with
  | none =>
      cases hc : cp fname with
      | none => simp [ImagedupsOld.updStep, hg, hc]
      | some hv =>
          simp only [ImagedupsOld.updStep, hg, hc]
          simp [ImagedupsOld.HashDB.get, ImagedupsOld.HashDB.add,
            lookupStr_assocUpd_ne _ _ _ _ h]
  | some v =>
      by_cases ht : old.timestamp < ImagedupsOld.time_changed (st fname)
      · cases hc : cp fname with
        | none => simp [ImagedupsOld.updStep, hg, ht, hc]
        | some hv =>
            simp only [ImagedupsOld.updStep, hg, hc, if_pos ht]
            simp [ImagedupsOld.HashDB.get, ImagedupsOld.HashDB.add,
            lookupStr_assocUpd_ne _ _ _ _ h]
      · simp only [ImagedupsOld.updStep, hg, if_neg ht]
        simp [ImagedupsOld.HashDB.get, ImagedupsOld.HashDB.add,
          lookupStr_assocUpd_ne _ _ _ _ h]

theorem foldl_updStep_log {H : Type} (old : ImagedupsOld.HashDB H)
    (st : String → ImagedupsOld.FileMeta) (cp : String → Option H) :
    ∀ (files : List String) (ndb : ImagedupsOld.HashDB H) (log : List String),
      (files.foldl (ImagedupsOld.updStep old st cp) (ndb, log)).2 =
        log ++ files.filter (ImagedupsOld.computesB old st) := by
  intro files
  induction files with
  | nil => intro ndb log; simp
  | cons f fs ih =>
      intro ndb log
      rcases hp : ImagedupsOld.updStep old st cp (ndb, log) f with ⟨ndb2, log2⟩
      have hsnd : log2 = if ImagedupsOld.computesB old st f then log ++ [f] else log := by
        have := updStep_snd old st cp ndb log f
        rw [hp] at this
        exact this
      rw [List.foldl_cons, hp, ih ndb2 log2, hsnd]
      by_cases hc : ImagedupsOld.computesB old st f
      · simp [List.filter_cons, hc]
      · simp [List.filter_cons, hc]

theorem foldl_updStep_get_not_mem {H : Type} (old : ImagedupsOld.HashDB H)
    (st : String → ImagedupsOld.FileMeta) (cp : String → Option H) :
    ∀ (files : List String) (ndb : ImagedupsOld.HashDB H) (log : List String)
      (fname : String), fname ∉ files →
      ((files.foldl (ImagedupsOld.updStep old st cp) (ndb, log)).1).get fname =
        ndb.get fname := by
  intro files
  induction files with
  | nil => intro ndb log fname _; rfl
  | cons f fs ih =>
      intro ndb log fname hnm
      have hne : f ≠ fname := fun he => hnm (he ▸ List.mem_cons_self f fs)
      have hnm2 : fname ∉ fs := fun hm => hnm (List.mem_cons_of_mem f hm)
      rcases hp : ImagedupsOld.updStep old st cp (ndb, log) f with ⟨ndb2, log2⟩
      have hfst : ndb2.get fname = ndb.get fname := by
        have := updStep_fst_get_ne old st cp ndb log f fname hne
        rw [hp] at this
        exact this
      rw [List.foldl_cons, hp, ih ndb2 log2 fname hnm2, hfst]

theorem count_filter_eq {α : Type} [DecidableEq α] (p : α → Bool) (a : α)
    (hp : p a = true) : ∀ l : List α, (l.filter p).count a = l.count a := by
  intro l
  induction l with
  | nil => rfl
  | cons x l ih =>
      by_cases hx : p x
      · rw [List.filter_cons_of_pos hx, List.count_cons, List.count_cons, ih]
      · have hxa : ¬ a = x := fun he => hx (he ▸ hp)
        have hax : ¬ x = a := fun he => hxa he.symm
        rw [List.filter_cons_of_neg hx, ih, List.count_cons]
        simp [hxa, hax]

/-- Claim C5 (amended): during an update pass over a store with timestamp
T0, a file already hashed in the store is reused — `compute` is not invoked
and the cached hash is carried into the new database — exactly when
`int(max(st_ctime, st_mtime))` is at most T0; when the file is absent from
the store or `max(ctime, mtime)` is newer than T0, `compute` is invoked
exactly once for it.  (The claim's condition, mtime alone, is wrong: the
code compares `time_changed = int(max(st_ctime, st_mtime))`.) -/
theorem claim_C5 {H : Type} (old : ImagedupsOld.HashDB H) (now : Nat)
    (stat : String → ImagedupsOld.FileMeta) (compute : String → Option H)
    (filenames : List String) (hnd : filenames.Nodup) (fname : String)
    (hmem : fname ∈ filenames) :
    (∀ v : H, old.get fname = some v →
      ImagedupsOld.time_changed (stat fname) ≤ old.timestamp →
      (ImagedupsOld.update_db old now stat compute filenames).2.count fname = 0 ∧
      (ImagedupsOld.update_db old now stat compute filenames).1.get fname = some v) ∧
    ((old.get fname = none ∨
        old.timestamp < ImagedupsOld.time_changed (stat fname)) →
      (ImagedupsOld.update_db old now stat compute filenames).2.count fname = 1) := by
  have h2 : (ImagedupsOld.update_db old now stat compute filenames).2 =
      filenames.filter (ImagedupsOld.computesB old stat) := by
    have := foldl_updStep_log old stat compute filenames ⟨[], now⟩ []
    simpa [ImagedupsOld.update_db] using this
  constructor
  · intro v hv ht
    have hnl : ¬ old.timestamp < ImagedupsOld.time_changed (stat fname) := by omega
    have hcB : ImagedupsOld.computesB old stat fname = false := by
      simp [ImagedupsOld.computesB, hv, hnl]
    constructor
    · rw [h2]
      refine List.count_eq_zero_of_not_mem fun hmf => ?_
      have := (List.mem_filter.mp hmf).2
      rw [hcB] at this
      exact Bool.noConfusion this
    · obtain ⟨l1, l2, rfl⟩ := List.append_of_mem hmem
      rw [List.nodup_append] at hnd
      have hn1 : fname ∉ l1 := fun hf => hnd.2.2 hf (List.mem_cons_self fname l2)
      have hn2 : fname ∉ l2 := (List.nodup_cons.mp hnd.2.1).1
      have hud : ImagedupsOld.update_db old now stat compute (l1 ++ fname :: l2) =
          List.foldl (ImagedupsOld.updStep old stat compute)
            (⟨[], now⟩, []) (l1 ++ fname :: l2) := rfl
      rw [hud, List.foldl_append, List.foldl_cons]
      rcases hp : List.foldl (ImagedupsOld.updStep old stat compute)
        (⟨[], now⟩, []) l1 with ⟨ndb1, log1⟩
      have hstep : ImagedupsOld.updStep old stat compute (ndb1, log1) fname =
          (ndb1.add fname v, log1) := by
        simp only [ImagedupsOld.updStep, hv, if_neg hnl]
      rw [hstep, foldl_updStep_get_not_mem old stat compute l2 _ _ fname hn2]
      simp [ImagedupsOld.HashDB.get, ImagedupsOld.HashDB.add, lookupStr_assocUpd_self]
  · intro hor
    have hcB : ImagedupsOld.computesB old stat fname = true := by
      rcases hor with h | h
      · simp [ImagedupsOld.computesB, h]
      · simp [ImagedupsOld.computesB, h]
    rw [h2, count_filter_eq _ _ hcB]
    exact List.count_eq_one_of_mem hnd hmem

/-- The cached store for the C5 counterexample and witness: file `a` is
hashed, the store timestamp is 10. -/
def oldDbC5 : ImagedupsOld.HashDB Nat := ⟨[("a", 0)], 10⟩

/-- Stat capability for the C5 counterexample: file `a` has mtime 5 (older
than the store's T0 = 10) but ctime 20 (newer). -/
def statC5x : String → ImagedupsOld.FileMeta := fun _ => ⟨20, 5⟩

/-- Provider for C5. -/
def computeC5 : String → Option Nat := fun _ => some 1

/-- Claim C5 counterexample: the file is present in the store and its
last-modified time (5) is at most the store timestamp (10), yet the code
invokes `compute` for it — once — because `time_changed` takes the maximum
of ctime and mtime and the ctime (20) is newer. -/
theorem claim_C5_counterexample :
    (statC5x "a").st_mtime ≤ oldDbC5.timestamp ∧
    oldDbC5.get "a" = some 0 ∧
    (ImagedupsOld.update_db oldDbC5 99 statC5x computeC5 ["a"]).2 = ["a"] :=
  ⟨by decide, by decide, by decide⟩

/-- Stat capability for the C5 witness: file `a` unchanged since the store
was built, file `b` recent. -/
def statC5w : String → ImagedupsOld.FileMeta := fun s =>
  if s = "a" then ⟨5, 5⟩ else ⟨20, 20⟩

/-- Witness for claim C5 at concrete inputs: `a` is cached and fresh, so it
is reused and not recomputed; `b` is unknown, so it is computed exactly
once. -/
theorem claim_C5_witness :
    ((ImagedupsOld.update_db oldDbC5 99 statC5w computeC5 ["a", "b"]).2.count "a" = 0 ∧
     (ImagedupsOld.update_db oldDbC5 99 statC5w computeC5 ["a", "b"]).1.get "a" = some 0) ∧
    (ImagedupsOld.update_db oldDbC5 99 statC5w computeC5 ["a", "b"]).2.count "b" = 1 :=
  ⟨(claim_C5 oldDbC5 99 statC5w computeC5 ["a", "b"] (by decide) "a" (by decide)).1
      0 (by decide) (by decide),
   (claim_C5 oldDbC5 99 statC5w computeC5 ["a", "b"] (by decide) "b" (by decide)).2
      (Or.inl (by decide))⟩

theorem strStarts_refl : ∀ l : List Char, DedupImages.strStarts l l = true := by
  intro l
  induction l with
  | nil => rfl
  | cons a as_ ih => simp [DedupImages.strStarts, ih]

theorem strStarts_trans : ∀ a b c : List Char, DedupImages.strStarts a b = true →
    DedupImages.strStarts b c = true → DedupImages.strStarts a c = true := by
  intro a
  induction a with
  | nil => intro b c _ _; rfl
  | cons x xs ih =>
      intro b c h1 h2
      cases b with
      | nil => exact absurd h1 (by simp [DedupImages.strStarts])
      | cons y bs =>
          cases c with
          | nil => exact absurd h2 (by simp [DedupImages.strStarts])
          | cons z cs =>
              simp only [DedupImages.strStarts, Bool.and_eq_true, beq_iff_eq] at h1 h2 ⊢
              exact ⟨h1.1.trans h2.1, ih bs cs h1.2 h2.2⟩

theorem startswith_refl (s : String) : DedupImages.startswith s s = true :=
  strStarts_refl s.data

theorem startswith_trans {a b c : String} (h1 : DedupImages.startswith b a = true)
    (h2 : DedupImages.startswith c b = true) : DedupImages.startswith c a = true :=
  strStarts_trans a.data b.data c.data h1 h2

theorem ltpStep_inv (processed paths : List String) (d : String)
    (h1 : ∀ p ∈ paths, p ∈ processed)
    (h2 : ∀ e ∈ processed, ∃ p ∈ paths, DedupImages.startswith e p = true)
    (h3 : ∀ p ∈ paths, ∀ q ∈ paths, p ≠ q → DedupImages.startswith p q = false) :
    (∀ p ∈ DedupImages.ltpStep paths d, p ∈ processed ++ [d]) ∧
    (∀ e ∈ processed ++ [d],
      ∃ p ∈ DedupImages.ltpStep paths d, DedupImages.startswith e p = true) ∧
    (∀ p ∈ DedupImages.ltpStep paths d, ∀ q ∈ DedupImages.ltpStep paths d,
      p ≠ q → DedupImages.startswith p q = false) := by
  by_cases hc : paths.any fun p => DedupImages.startswith d p
  · have hstep : DedupImages.ltpStep paths d = paths := by
      simp [DedupImages.ltpStep, hc]
    obtain ⟨p0, hp0, hdp0⟩ := List.any_eq_true.mp hc
    rw [hstep]
    refine ⟨fun p hp => List.mem_append_left _ (h1 p hp), ?_, h3⟩
    intro e he
    rcases List.mem_append.mp he with he | he
    · exact h2 e he
    · rcases List.mem_singleton.mp he with rfl
      exact ⟨p0, hp0, hdp0⟩
  · have hstep : DedupImages.ltpStep paths d =
        (paths.filter fun p => ! DedupImages.startswith p d) ++ [d] := by
      simp [DedupImages.ltpStep, hc]
    have hnc : ∀ p ∈ paths, DedupImages.startswith d p = false := by
      intro p hp
      by_cases hv : DedupImages.startswith d p = true
      · exact absurd (List.any_eq_true.mpr ⟨p, hp, hv⟩) hc
      · exact Bool.eq_false_iff.mpr hv
    rw [hstep]
    refine ⟨?_, ?_, ?_⟩
    · intro p hp
      rcases List.mem_append.mp hp with hp | hp
      · exact List.mem_append_left _ (h1 p (List.mem_of_mem_filter hp))
      · rcases List.mem_singleton.mp hp with rfl
        exact List.mem_append_right _ (List.mem_singleton_self p)
    · intro e he
      rcases List.mem_append.mp he with he | he
      · obtain ⟨p, hp, hep⟩ := h2 e he
        by_cases hpd : DedupImages.startswith p d = true
        · exact ⟨d, List.mem_append_right _ (List.mem_singleton_self d),
            startswith_trans hpd hep⟩
        · refine ⟨p, List.mem_append_left _ (List.mem_filter.mpr ⟨hp, ?_⟩), hep⟩
          simp [Bool.eq_false_iff.mpr hpd]
      · rcases List.mem_singleton.mp he with rfl
        exact ⟨e, List.mem_append_right _ (List.mem_singleton_self e),
          startswith_refl e⟩
    · intro p hp q hq hne
      rcases List.mem_append.mp hp with hp | hp <;>
        rcases List.mem_append.mp hq with hq | hq
      · exact h3 p (List.mem_of_mem_filter hp) q (List.mem_of_mem_filter hq) hne
      · rcases List.mem_singleton.mp hq with rfl
        have := (List.mem_filter.mp hp).2
        simpa using this
      · rcases List.mem_singleton.mp hp with rfl
        exact hnc q (List.mem_of_mem_filter hq)
      · rcases List.mem_singleton.mp hp with rfl
        rcases List.mem_singleton.mp hq with rfl
        exact absurd rfl hne

theorem ltp_fold_inv : ∀ (L : List String) (processed paths : List String),
    (∀ p ∈ paths, p ∈ processed) →
    (∀ e ∈ processed, ∃ p ∈ paths, DedupImages.startswith e p = true) →
    (∀ p ∈ paths, ∀ q ∈ paths, p ≠ q → DedupImages.startswith p q = false) →
    (∀ p ∈ L.foldl DedupImages.ltpStep paths, p ∈ processed ++ L) ∧
    (∀ e ∈ processed ++ L,
      ∃ p ∈ L.foldl DedupImages.ltpStep paths, DedupImages.startswith e p = true) ∧
    (∀ p ∈ L.foldl DedupImages.ltpStep paths, ∀ q ∈ L.foldl DedupImages.ltpStep paths,
      p ≠ q → DedupImages.startswith p q = false) := by
  intro L
  induction L with
  | nil =>
      intro processed paths h1 h2 h3
      simpa using ⟨h1, h2, h3⟩
  | cons d L2 ih =>
      intro processed paths h1 h2 h3
      obtain ⟨g1, g2, g3⟩ := ltpStep_inv processed paths d h1 h2 h3
      have := ih (processed ++ [d]) (DedupImages.ltpStep paths d) g1 g2 g3
      simpa [List.append_assoc] using this

/-- Claim C9: `listTopPaths` returns a lexicographically sorted list of
directories such that every alias of the index lies under some returned
directory, no returned directory is an initial run of another (so the set is
an antichain and none is redundant), and every returned directory is the
`dirname` of some alias.  "Under", "ancestor" and "descendant" are the
string-initial-run relation the code implements with `str.startswith`. -/
theorem claim_C9 {H : Type} (dirname : String → String) (db : DedupImages.HashDB H) :
    List.Pairwise (fun a b => PySort.strLe a b = true)
      (DedupImages.list_top_paths dirname db) ∧
    (∀ it ∈ db.items, ∀ f ∈ it.file_names,
      ∃ p ∈ DedupImages.list_top_paths dirname db,
        DedupImages.startswith (dirname f) p = true) ∧
    (∀ p ∈ DedupImages.list_top_paths dirname db,
      ∀ q ∈ DedupImages.list_top_paths dirname db,
        p ≠ q → DedupImages.startswith p q = false) ∧
    (∀ p ∈ DedupImages.list_top_paths dirname db,
      ∃ it ∈ db.items, ∃ f ∈ it.file_names, dirname f = p) := by
  have hinv := ltp_fold_inv
    (db.items.flatMap fun it => (PySort.sortedAliases it.file_names).map dirname)
    [] [] (fun p hp => absurd hp (List.not_mem_nil p))
    (fun e he => absurd he (List.not_mem_nil e))
    (fun p hp => absurd hp (List.not_mem_nil p))
  rw [List.nil_append] at hinv
  obtain ⟨g1, g2, g3⟩ := hinv
  have hres : DedupImages.list_top_paths dirname db = PySort.sortLe PySort.strLe
      ((db.items.flatMap fun it =>
        (PySort.sortedAliases it.file_names).map dirname).foldl DedupImages.ltpStep []) :=
    rfl
  refine ⟨?_, ?_, ?_, ?_⟩
  · rw [hres]
    exact PySort.sortLe_pairwise PySort.strLe_total PySort.strLe_trans _
  · intro it hit f hf
    have hmemL : dirname f ∈
        db.items.flatMap fun it => (PySort.sortedAliases it.file_names).map dirname :=
      List.mem_flatMap.mpr ⟨it, hit,
        List.mem_map.mpr ⟨f, PySort.mem_sortedAliases.mpr hf, rfl⟩⟩
    obtain ⟨p, hp, hcov⟩ := g2 (dirname f) hmemL
    exact ⟨p, by rw [hres]; exact (PySort.mem_sortLe _ _ p).mpr hp, hcov⟩
  · intro p hp q hq hne
    rw [hres] at hp hq
    exact g3 p ((PySort.mem_sortLe _ _ p).mp hp) q ((PySort.mem_sortLe _ _ q).mp hq) hne
  · intro p hp
    rw [hres] at hp
    have hpL := g1 p ((PySort.mem_sortLe _ _ p).mp hp)
    obtain ⟨it, hit, hmap⟩ := List.mem_flatMap.mp hpL
    obtain ⟨f, hf, hdf⟩ := List.mem_map.mp hmap
    exact ⟨it, hit, f, PySort.mem_sortedAliases.mp hf, hdf⟩

/-- Dirname capability for the C9 witness. -/
def dirC9 : String → String := fun s =>
  if s = "/a/1.jpg" ∨ s = "/a/2.jpg" then "/a" else "/b"

/-- First item of the C9 witness index. -/
def itC9a : DedupImages.HashItem Nat := ⟨{"/a/1.jpg", "/b/3.jpg"}, 1, none, none, []⟩

/-- Second item of the C9 witness index. -/
def itC9b : DedupImages.HashItem Nat := ⟨{"/a/2.jpg"}, 2, none, none, []⟩

/-- Index for the C9 witness. -/
def dbC9 : DedupImages.HashDB Nat := ⟨[itC9a, itC9b]⟩

/-- Witness for claim C9 at concrete inputs. -/
theorem claim_C9_witness :
    (∃ p ∈ DedupImages.list_top_paths dirC9 dbC9,
      DedupImages.startswith (dirC9 "/a/1.jpg") p = true) ∧
    (∀ q ∈ DedupImages.list_top_paths dirC9 dbC9,
      "/a" ≠ q → DedupImages.startswith "/a" q = false) ∧
    (∃ it ∈ dbC9.items, ∃ f ∈ it.file_names, dirC9 f = "/a") :=
  ⟨(claim_C9 dirC9 dbC9).2.1 itC9a (by decide) "/a/1.jpg" (by decide),
   (claim_C9 dirC9 dbC9).2.2.1 "/a" (by decide),
   (claim_C9 dirC9 dbC9).2.2.2 "/a" (by decide)⟩
